import Mathlib

/-!
Verification of the conversation-analyzer core
(`src/conversation_analyzer/conversation_analyzer.py`).

The Python functions are shallowly embedded as executable Lean
definitions: dictionaries become structures or total functions,
`datetime.strptime`-based parsing becomes an explicit 12-hour-clock
parser, exceptions become `Except` values, and Python's stable
`sorted` becomes a structurally recursive stable insertion sort.
Theorems about the claims follow the definitions.
-/

/-- Period-of-day bucket returned by `categorize_time_period`. -/
inductive Period
  | morning
  | afternoon
  | evening
  | night
deriving DecidableEq, Repr

/-- Error taxonomy of the core: `ValueError("Unrecognized JSON format")`,
`ValueError` from `datetime.strptime`, `IndexError` from
`conversation['messages'][0]` on an empty session, and `KeyError` from
`data['date']` when the label key is absent. -/
inductive Err
  | unrecognizedFormat
  | timestampParse
  | emptySession
  | keyError
deriving DecidableEq, Repr

/-- Message content: a JSON string, or any other JSON value represented by
its deterministic textual rendering (the Python code calls `str(...)` on
non-string content). -/
inductive Content
  | str (s : String)
  | other (rendering : String)
deriving DecidableEq, Repr

/-- Textual form of a message content: `message['content']` if it is a
string, otherwise `str(message['content'])`. -/
def contentText : Content → String
  | .str s => s
  | .other r => r

/-- One message: a `role` key and a `content` key. -/
structure Message where
  role : String
  content : Content
deriving DecidableEq, Repr

/-- One conversation record: `start_time`, `end_time` and `messages`. -/
structure Session where
  start_time : String
  end_time : String
  messages : List Message
deriving DecidableEq, Repr

/-- The standardized dictionary produced by `load_conversation_file`:
a `date` key (absent when a shape-(a) input carried none, hence
`Option`) and a `conversations` key. -/
structure Log where
  date : Option String
  conversations : List Session
deriving DecidableEq, Repr

/-- Raw JSON input as seen by `load_conversation_file` after `json.load`:
a mapping (with optional `date` key and optional `conversations` key),
a bare array of conversations, or any other JSON value. -/
inductive RawInput
  | dict (date : Option String) (conversations : Option (List Session))
  | list (conversations : List Session)
  | other
deriving DecidableEq, Repr

/-- Substring test on character lists, embedding Python's `"x" in s`. -/
def containsList (pat : List Char) : List Char → Bool
  | [] => pat.isEmpty
  | c :: cs => pat.isPrefixOf (c :: cs) || containsList pat cs

/-- Split a character list at every occurrence of `sep`, keeping empty
chunks, embedding Python's `str.split('_')`. -/
def splitChar (sep : Char) : List Char → List (List Char)
  | [] => [[]]
  | c :: cs =>
    if c = sep then
      [] :: splitChar sep cs
    else
      match splitChar sep cs with
      | [] => [[c]]
      | p :: ps => (c :: p) :: ps

/-- Remove every occurrence of `".json"` from a character list, scanning
left to right, embedding Python's `part.replace('.json', '')`. -/
def removeJson : List Char → List Char
  | '.' :: 'j' :: 's' :: 'o' :: 'n' :: rest => removeJson rest
  | c :: cs => c :: removeJson cs
  | [] => []

/-- Label synthesis of `load_conversation_file` for old-format (bare list)
input: if `"20"` occurs in the filename, the first `'_'`-separated part
that starts with `"20"` and contains `".json"` becomes the date, with
every `".json"` occurrence removed; otherwise `"Unknown Date"`. -/
def dateFromFilename (filename : String) : String :=
  if containsList "20".toList filename.toList then
    match (splitChar '_' filename.toList).find?
        (fun part => "20".toList.isPrefixOf part && containsList ".json".toList part) with
    | some part => String.mk (removeJson part)
    | none => "Unknown Date"
  else "Unknown Date"

/-- Embedding of `load_conversation_file` after `json.load`: a dict with a
`conversations` key is returned as is; a bare list is wrapped with a date
derived from the filename; anything else raises
`ValueError("Unrecognized JSON format")`. -/
def load_conversation_file (raw : RawInput) (filename : String) : Except Err Log :=
  match raw with
  | .dict date (some conversations) => .ok ⟨date, conversations⟩
  | .dict _ none => .error .unrecognizedFormat
  | .list conversations => .ok ⟨some (dateFromFilename filename), conversations⟩
  | .other => .error .unrecognizedFormat

/-- Parse a timestamp in the strict `"%I:%M %p"` shape used throughout the
analyzer (two-digit 12-hour clock hour, two-digit minute, `AM`/`PM`),
embedding `datetime.strptime(s, "%I:%M %p")`; the result is the
24-hour-clock hour together with the minute. -/
def parseTime12 (s : String) : Option (Nat × Nat) :=
  match s.toList with
  | [h1, h2, ':', m1, m2, ' ', p, 'M'] =>
    if h1.isDigit && h2.isDigit && m1.isDigit && m2.isDigit then
      let h12 := (h1.toNat - 48) * 10 + (h2.toNat - 48)
      let minute := (m1.toNat - 48) * 10 + (m2.toNat - 48)
      if 1 ≤ h12 && h12 ≤ 12 && minute ≤ 59 && (p = 'A' || p = 'P') then
        let hour24 :=
          if p = 'P' then (if h12 = 12 then 12 else h12 + 12)
          else (if h12 = 12 then 0 else h12)
        some (hour24, minute)
      else none
    else none
  | _ => none

/-- Embedding of `categorize_time_period`: parse the time string and map
the 24-hour-clock hour to a period of day. -/
def categorize_time_period (time_string : String) : Except Err Period :=
  match parseTime12 time_string with
  | none => .error .timestampParse
  | some (hour, _) =>
    if 6 ≤ hour ∧ hour < 12 then .ok .morning
    else if 12 ≤ hour ∧ hour < 17 then .ok .afternoon
    else if 17 ≤ hour ∧ hour < 22 then .ok .evening
    else .ok .night

/-- Embedding of `calculate_duration`: parse both timestamps on the same
reference date, take the difference in seconds, divide by 60 and truncate
toward zero (Python's `int(...)` on the exact quotient). -/
def calculate_duration (start_time end_time : String) : Except Err Int :=
  match parseTime12 start_time with
  | none => .error .timestampParse
  | some s =>
    match parseTime12 end_time with
    | none => .error .timestampParse
    | some e =>
      let total_seconds : Int :=
        (((e.1 * 60 + e.2 : Nat) : Int) - ((s.1 * 60 + s.2 : Nat) : Int)) * 60
      .ok (total_seconds.tdiv 60)

/-- Stable ascending insertion of a string into a sorted list; an embedding
device for Python's `sorted` on participant names. -/
def insertStr (x : String) : List String → List String
  | [] => [x]
  | y :: ys => if x ≤ y then x :: y :: ys else y :: insertStr x ys

/-- Ascending sort of a string list, modelling Python's `sorted(...)`. -/
def sortStrs : List String → List String
  | [] => []
  | x :: xs => insertStr x (sortStrs xs)

/-- Embedding of `detect_participants`: collect the `role` of every message
of every conversation, deduplicate (Python's `set`), and sort. -/
def detect_participants (data : Log) : List String :=
  sortStrs ((data.conversations.flatMap fun conversation =>
    conversation.messages.map (·.role)).dedup)

/-- The fixed stop-word table of `extract_topics`. -/
def stop_words : List String :=
  ["the", "be", "to", "of", "and", "a", "in", "that", "have", "i",
   "it", "for", "not", "on", "with", "he", "as", "you", "do", "at",
   "this", "but", "his", "by", "from", "they", "we", "say", "her", "she",
   "or", "an", "will", "my", "one", "all", "would", "there", "their",
   "what", "so", "up", "out", "if", "about", "who", "get", "which", "go",
   "me", "when", "make", "can", "like", "time", "no", "just", "him", "know",
   "take", "into", "your", "some", "could", "them", "see", "other", "than",
   "then", "now", "look", "only", "come", "its", "over", "think", "also",
   "back", "after", "use", "two", "how", "our", "work", "first", "well",
   "way", "even", "new", "want", "because", "any", "these", "give", "day",
   "most", "us", "is", "was", "are", "been", "has", "had", "were", "said",
   "did", "having", "may", "am", "are", "im", "youre", "thats", "dont",
   "ive", "isnt", "arent", "wasnt", "werent", "wont", "cant", "couldnt"]

/-- Strip every non-alphanumeric character from a raw token, embedding
`''.join(c for c in word if c.isalnum())`. -/
def cleanWord (word : String) : String :=
  String.mk (word.toList.filter Char.isAlphanum)

/-- Increment the count of a key in an insertion-ordered association list,
appending the key with count 1 when absent; embedding of the
`word_counts` dictionary update. -/
def bumpCount : List (String × Nat) → String → List (String × Nat)
  | [], w => [(w, 1)]
  | (k, c) :: rest, w =>
    if k = w then (k, c + 1) :: rest else (k, c) :: bumpCount rest w

/-- Process one raw token of `extract_topics`: clean it, skip it when it is
shorter than 3 characters or a stop word, and otherwise count it. -/
def addWord (word_counts : List (String × Nat)) (word : String) : List (String × Nat) :=
  let clean_word := cleanWord word
  if clean_word.length < 3 || decide (clean_word ∈ stop_words) then word_counts
  else bumpCount word_counts clean_word

/-- Whitespace tokenization, embedding Python's `str.split()`: split on
whitespace characters and drop empty chunks. -/
def pySplit (s : String) : List String :=
  ((s.toList.splitOnP (·.isWhitespace)).filter (· ≠ [])).map String.mk

/-- Character-by-character lower-casing, embedding Python's `str.lower()`
on the content handled here. -/
def pyLower (s : String) : String :=
  String.mk (s.toList.map Char.toLower)

/-- The raw tokens contributed by one message: its textual content,
lower-cased and whitespace-split. -/
def messageWords (message : Message) : List String :=
  pySplit (pyLower (contentText message.content))

/-- The insertion-ordered frequency table built by `extract_topics` over
every message of every conversation. -/
def word_counts (data : Log) : List (String × Nat) :=
  data.conversations.foldl
    (fun wc conversation =>
      conversation.messages.foldl
        (fun wc message => (messageWords message).foldl addWord wc) wc)
    []

/-- Stable insertion of a topic entry into a count-descending list: the
entry goes before the first entry with a count less than or equal to its
own, so earlier-inserted entries win ties. -/
def insertTopic (x : String × Nat) : List (String × Nat) → List (String × Nat)
  | [] => [x]
  | y :: ys => if y.2 ≤ x.2 then x :: y :: ys else y :: insertTopic x ys

/-- Stable count-descending sort, modelling Python's
`sorted(word_counts.items(), key=lambda x: x[1], reverse=True)`
(a stable sort with ties in first-insertion order). -/
def sortTopics : List (String × Nat) → List (String × Nat)
  | [] => []
  | x :: xs => insertTopic x (sortTopics xs)

/-- The fully sorted topic list of `extract_topics` before truncation. -/
def sorted_topics (data : Log) : List (String × Nat) :=
  sortTopics (word_counts data)

/-- Embedding of `extract_topics`: the sorted topic list truncated to the
first `top_n` entries. -/
def extract_topics (data : Log) (top_n : Nat := 15) : List (String × Nat) :=
  (sorted_topics data).take top_n

/-- The four counters of the `time_periods` dictionary. -/
structure TimePeriods where
  morning : Nat
  afternoon : Nat
  evening : Nat
  night : Nat
deriving DecidableEq, Repr

/-- Add a session's message count to the counter of its period, embedding
`stats['time_periods'][time_period] += message_count`. -/
def addPeriod (tp : TimePeriods) (p : Period) (message_count : Nat) : TimePeriods :=
  match p with
  | .morning => { tp with morning := tp.morning + message_count }
  | .afternoon => { tp with afternoon := tp.afternoon + message_count }
  | .evening => { tp with evening := tp.evening + message_count }
  | .night => { tp with night := tp.night + message_count }

/-- One per-session summary record (`conv_info` in the source). -/
structure ConvInfo where
  index : Nat
  message_count : Nat
  duration_minutes : Int
  start_time : String
  end_time : String
  time_period : Period
deriving DecidableEq, Repr

/-- The statistics dictionary built by `get_basic_stats`. The
per-participant dictionaries are modelled as total functions that are
zero (or empty) outside the participant set, matching the dictionaries
built from the participant list. -/
structure Stats where
  date : String
  num_conversations : Nat
  total_messages : Nat
  participants : List String
  messages_by_participant : String → Nat
  conversation_lengths : List ConvInfo
  shortest_conversation : Option ConvInfo
  longest_conversation : Option ConvInfo
  time_periods : TimePeriods
  conversations_started_by : String → Nat
  message_lengths_by_participant : String → List Nat

instance : Inhabited Stats :=
  ⟨⟨"", 0, 0, [], fun _ => 0, [], none, none, ⟨0, 0, 0, 0⟩, fun _ => 0, fun _ => []⟩⟩

/-- Pointwise increment of a per-participant counter dictionary. -/
def bumpFn (f : String → Nat) (k : String) : String → Nat :=
  fun q => if q = k then f q + 1 else f q

/-- Append a sample to a per-participant length-sample dictionary. -/
def pushLen (f : String → List Nat) (k : String) (n : Nat) : String → List Nat :=
  fun q => if q = k then f q ++ [n] else f q

/-- Running-extreme update for `shortest_conversation` and
`longest_conversation`: replace the stored summary exactly when there is
none yet or the new count is strictly better for `lt`. -/
def extremeStep (lt : Nat → Nat → Prop) [DecidableRel lt]
    (cur : Option ConvInfo) (conv_info : ConvInfo) : Option ConvInfo :=
  match cur with
  | none => some conv_info
  | some c =>
    if lt conv_info.message_count c.message_count then some conv_info else some c

/-- The `shortest_conversation` update of the source (strict `<`). -/
def shortStep : Option ConvInfo → ConvInfo → Option ConvInfo :=
  extremeStep (· < ·)

/-- The `longest_conversation` update of the source (strict `>`). -/
def longStep : Option ConvInfo → ConvInfo → Option ConvInfo :=
  extremeStep (· > ·)

/-- Per-message body of the inner loop of `get_basic_stats`: bump the total
message count, the speaker's message count, and the speaker's
length-sample list. -/
def processMessage (st : Stats) (message : Message) : Stats :=
  { st with
    total_messages := st.total_messages + 1,
    messages_by_participant := bumpFn st.messages_by_participant message.role,
    message_lengths_by_participant :=
      pushLen st.message_lengths_by_participant message.role
        (contentText message.content).length }

/-- Per-session body of the outer loop of `get_basic_stats`, in source
order: duration, time period, period counter, opener (failing on an empty
session), session summary, running extremes, then the message loop. -/
def processSession (i : Nat) (st : Stats) (conversation : Session) : Except Err Stats :=
  let message_count := conversation.messages.length
  match calculate_duration conversation.start_time conversation.end_time with
  | .error e => .error e
  | .ok duration =>
    match categorize_time_period conversation.start_time with
    | .error e => .error e
    | .ok time_period =>
      let st1 := { st with time_periods := addPeriod st.time_periods time_period message_count }
      match conversation.messages with
      | [] => .error .emptySession
      | m0 :: _ =>
        let st2 := { st1 with
          conversations_started_by := bumpFn st1.conversations_started_by m0.role }
        let conv_info : ConvInfo :=
          ⟨i + 1, message_count, duration,
            conversation.start_time, conversation.end_time, time_period⟩
        let st3 := { st2 with
          conversation_lengths := st2.conversation_lengths ++ [conv_info] }
        let st4 := { st3 with
          shortest_conversation := shortStep st3.shortest_conversation conv_info }
        let st5 := { st4 with
          longest_conversation := longStep st4.longest_conversation conv_info }
        .ok (conversation.messages.foldl processMessage st5)

/-- The enumerate-loop of `get_basic_stats` over the conversation list. -/
def statsLoop (i : Nat) (st : Stats) : List Session → Except Err Stats
  | [] => .ok st
  | conversation :: rest =>
    match processSession i st conversation with
    | .error e => .error e
    | .ok st' => statsLoop (i + 1) st' rest

/-- The initial statistics dictionary of `get_basic_stats`. -/
def initStats (date : String) (participants : List String) (n : Nat) : Stats :=
  { date := date,
    num_conversations := n,
    total_messages := 0,
    participants := participants,
    messages_by_participant := fun _ => 0,
    conversation_lengths := [],
    shortest_conversation := none,
    longest_conversation := none,
    time_periods := ⟨0, 0, 0, 0⟩,
    conversations_started_by := fun _ => 0,
    message_lengths_by_participant := fun _ => [] }

/-- Embedding of `get_basic_stats`: read the date key (a `KeyError` when it
is absent), set up the statistics dictionary, and run the session
loop. -/
def get_basic_stats (data : Log) : Except Err Stats :=
  match data.date with
  | none => .error .keyError
  | some d =>
    statsLoop 0 (initStats d (detect_participants data) data.conversations.length)
      data.conversations

/-- Overwrite the date field of a statistics record. -/
def setDate (x : String) (st : Stats) : Stats :=
  { st with date := x }

/-- Blank out the date field of a statistics record; two records agree
after `eraseDate` exactly when they agree in every field but the label. -/
def eraseDate (st : Stats) : Stats :=
  setDate "" st

/-- Sum of the four period-of-day message counters. -/
def periodSum (tp : TimePeriods) : Nat :=
  tp.morning + tp.afternoon + tp.evening + tp.night

/-- Sum of the per-participant message counts over the participant list. -/
def partSum (st : Stats) : Nat :=
  (st.participants.map st.messages_by_participant).sum

/-- Sum of the per-participant opener counts over the participant list. -/
def openerSum (st : Stats) : Nat :=
  (st.participants.map st.conversations_started_by).sum

/-- Sample input: the single-message log of the topic-filtering scenario. -/
def topicLog : Log :=
  ⟨some "2025-10-30",
   [⟨"09:00 AM", "09:10 AM",
     [⟨"alice", .str "The the THE cat sat on a mat and the dog ran"⟩]⟩]⟩

/-- Sample input exercising case-insensitive counting. -/
def caseLog : Log :=
  ⟨some "2025-10-30", [⟨"09:00 AM", "09:10 AM", [⟨"alice", .str "Cat cat!"⟩]⟩]⟩

/-- Sample input: the two-session end-to-end scenario log. -/
def sampleLog : Log :=
  ⟨some "2025-10-30",
   [⟨"09:00 AM", "09:10 AM",
     [⟨"alice", .str "hello world today"⟩, ⟨"bob", .str "hello back today"⟩]⟩,
    ⟨"02:00 PM", "02:02 PM", [⟨"bob", .str "quick chat"⟩]⟩]⟩

/-- The statistics record computed for `sampleLog`. -/
def sampleStats : Stats :=
  (get_basic_stats sampleLog).toOption.get!

/-- Sample input containing a session with no messages. -/
def emptySessionLog : Log :=
  ⟨some "2025-10-30", [⟨"09:00 AM", "09:05 AM", []⟩]⟩

/-! ### Helper lemmas about the filename scan -/

lemma consPre_iff {a b : Char} {l₁ l₂ : List Char} :
    a :: l₁ <+: b :: l₂ ↔ a = b ∧ l₁ <+: l₂ := by
  constructor
  · rintro ⟨t, ht⟩
    injection ht with h1 h2
    exact ⟨h1, t, h2⟩
  · rintro ⟨rfl, t, ht⟩
    exact ⟨t, by rw [← ht]; rfl⟩

lemma inf_cons_iff {l₁ l₂ : List Char} {a : Char} :
    l₁ <:+: a :: l₂ ↔ l₁ <+: a :: l₂ ∨ l₁ <:+: l₂ := by
  constructor
  · rintro ⟨s, t, hst⟩
    cases s with
    | nil => exact Or.inl ⟨t, hst⟩
    | cons x s' =>
      injection hst with h1 h2
      exact Or.inr ⟨s', t, h2⟩
  · rintro (⟨t, ht⟩ | ⟨s, t, hst⟩)
    · exact ⟨[], t, ht⟩
    · exact ⟨a :: s, t, by rw [← hst]; rfl⟩

lemma inf_cons {l₁ l₂ : List Char} {a : Char} (h : l₁ <:+: l₂) : l₁ <:+: a :: l₂ :=
  inf_cons_iff.mpr (Or.inr h)

lemma pre_inf {l₁ l₂ : List Char} (h : l₁ <+: l₂) : l₁ <:+: l₂ := by
  obtain ⟨t, ht⟩ := h
  exact ⟨[], t, ht⟩

lemma isPrefixOf_true_iff : ∀ (l₁ l₂ : List Char), l₁.isPrefixOf l₂ = true ↔ l₁ <+: l₂ := by
  intro l₁
  induction l₁ with
  | nil =>
    intro l₂
    constructor
    · intro _
      exact ⟨l₂, rfl⟩
    · intro _
      cases l₂ <;> rfl
  | cons a as ih =>
    intro l₂
    cases l₂ with
    | nil =>
      constructor
      · intro h
        simp [List.isPrefixOf] at h
      · intro h
        obtain ⟨t, ht⟩ := h
        simp at ht
    | cons b bs =>
      rw [List.isPrefixOf]
      simp [Bool.and_eq_true, beq_iff_eq, ih, consPre_iff]

lemma containsList_iff_inf (pat : List Char) (l : List Char) :
    containsList pat l = true ↔ pat <:+: l := by
  induction l with
  | nil =>
    simp [containsList, List.isEmpty_iff]
  | cons c cs ih =>
    simp [containsList, Bool.or_eq_true, isPrefixOf_true_iff, ih, inf_cons_iff]

lemma splitChar_ne_nil (sep : Char) (l : List Char) : splitChar sep l ≠ [] := by
  induction l with
  | nil => simp [splitChar]
  | cons c cs ih =>
    by_cases hc : c = sep
    · simp [splitChar, hc]
    · simp only [splitChar, if_neg hc]
      cases h : splitChar sep cs with
      | nil => exact absurd h ih
      | cons p ps => simp

lemma splitChar_head_pre (sep : Char) :
    ∀ (l p : List Char) (ps : List (List Char)), splitChar sep l = p :: ps → p <+: l := by
  intro l
  induction l with
  | nil =>
    intro p ps h
    rw [splitChar] at h
    injection h with h1 h2
    subst h1
    exact ⟨_, rfl⟩
  | cons c cs ih =>
    intro p ps h
    by_cases hc : c = sep
    · rw [splitChar, if_pos hc] at h
      injection h with h1 h2
      subst h1
      exact ⟨_, rfl⟩
    · rw [splitChar, if_neg hc] at h
      cases hsp : splitChar sep cs with
      | nil => exact absurd hsp (splitChar_ne_nil sep cs)
      | cons q qs =>
        rw [hsp] at h
        injection h with h1 h2
        subst h1
        exact consPre_iff.mpr ⟨rfl, ih q qs hsp⟩

lemma mem_splitChar_inf (sep : Char) :
    ∀ (l p : List Char), p ∈ splitChar sep l → p <:+: l := by
  intro l
  induction l with
  | nil =>
    intro p hp
    simp [splitChar] at hp
    simp [hp]
  | cons c cs ih =>
    intro p hp
    by_cases hc : c = sep
    · rw [splitChar, if_pos hc] at hp
      rcases List.mem_cons.mp hp with h | h
      · subst h
        exact ⟨[], _, rfl⟩
      · exact inf_cons (ih p h)
    · rw [splitChar, if_neg hc] at hp
      cases hsp : splitChar sep cs with
      | nil => exact absurd hsp (splitChar_ne_nil sep cs)
      | cons q qs =>
        rw [hsp] at hp
        rcases List.mem_cons.mp hp with h | h
        · subst h
          exact pre_inf (consPre_iff.mpr
            ⟨rfl, splitChar_head_pre sep cs q qs hsp⟩)
        · exact inf_cons (ih p (hsp ▸ List.mem_cons_of_mem q h))

lemma startsWith20_shape (part : List Char)
    (h : List.isPrefixOf "20".toList part = true) :
    ∃ rest, part = '2' :: '0' :: rest := by
  obtain ⟨t, ht⟩ := (isPrefixOf_true_iff _ _).mp h
  exact ⟨t, ht.symm⟩

lemma dateFromFilename_ne_empty (hint : String) : dateFromFilename hint ≠ "" := by
  unfold dateFromFilename
  split
  · split
    · next part hfind =>
      have hp := List.find?_some hfind
      rw [Bool.and_eq_true] at hp
      obtain ⟨rest, hrest⟩ := startsWith20_shape _ hp.1
      subst hrest
      intro hcontra
      have hdata := congrArg String.data hcontra
      rw [show removeJson ('2' :: '0' :: rest) = '2' :: removeJson ('0' :: rest)
        from rfl] at hdata
      simp at hdata
    · decide
  · decide

/-! ### Claims about the Format Normalizer (C1, C3) -/

/-- C1 (counterexample): a shape-(a) mapping that has a `conversations` key
but no label field is accepted by the Format Normalizer and passes through
with no label at all, so the returned Log's label is neither non-empty nor
the sentinel "Unknown Date". -/
theorem spec_C1_counterexample :
    load_conversation_file (RawInput.dict none (some [])) "conversations.json"
      = .ok { date := none, conversations := [] }
    ∧ (({ date := none, conversations := [] } : Log)).date ≠ some "Unknown Date" :=
  ⟨rfl, by decide⟩

/-- C1 (amended): for shape-(b) (bare sequence) input the normalized Log
always carries a label and it is non-empty (either a token derived from
the filename hint or the sentinel "Unknown Date"); shape-(a) mappings with
a `conversations` key pass through unchanged, so a missing label field
stays missing and no sentinel is injected. -/
theorem spec_C1 (sessions : List Session) (hint : String) :
    (∃ d, load_conversation_file (RawInput.list sessions) hint
        = .ok { date := some d, conversations := sessions } ∧ d ≠ "")
    ∧ ∀ (date : Option String) (convs : List Session),
        load_conversation_file (RawInput.dict date (some convs)) hint
          = .ok { date := date, conversations := convs } :=
  ⟨⟨dateFromFilename hint, rfl, dateFromFilename_ne_empty hint⟩, fun _ _ => rfl⟩

/-- C3 (counterexample): on the hint "2025.json.txt" no underscore token
ends with the suffix marker ".json", so by the claim the label should be
exactly "Unknown Date"; the code nevertheless accepts the token (it only
requires ".json" to occur inside it) and produces "2025.txt". -/
theorem spec_C3_counterexample :
    dateFromFilename "2025.json.txt" = "2025.txt"
    ∧ ((splitChar '_' "2025.json.txt".toList).all
        fun part => !(".json".toList.isSuffixOf part)) = true
    ∧ ("2025.txt" : String) ≠ "Unknown Date" :=
  ⟨rfl, by decide, by decide⟩

/-- C3 (amended): for shape-(b) input the label is derived from the hint
string as follows: the first underscore-separated token that begins with
"20" and contains the marker ".json" becomes the label with every
occurrence of ".json" removed; when no such token exists the label is
exactly "Unknown Date". -/
theorem spec_C3 (hint : String) :
    (∀ part, (splitChar '_' hint.toList).find?
        (fun part => "20".toList.isPrefixOf part && containsList ".json".toList part)
          = some part →
      dateFromFilename hint = String.mk (removeJson part))
    ∧ ((splitChar '_' hint.toList).find?
        (fun part => "20".toList.isPrefixOf part && containsList ".json".toList part)
          = none →
      dateFromFilename hint = "Unknown Date") := by
  constructor
  · intro part hfind
    have hpred := List.find?_some hfind
    rw [Bool.and_eq_true] at hpred
    have hmem := List.mem_of_find?_eq_some hfind
    have hinf : "20".toList <:+: hint.toList :=
      (pre_inf ((isPrefixOf_true_iff _ _).mp hpred.1)).trans
        (mem_splitChar_inf '_' hint.toList part hmem)
    have hguard : containsList "20".toList hint.toList = true :=
      (containsList_iff_inf _ _).mpr hinf
    unfold dateFromFilename
    rw [if_pos hguard, hfind]
  · intro hfind
    unfold dateFromFilename
    split
    · rw [hfind]
    · rfl

/-- C3 (witness): the amended derivation evaluated on a filename with a
derivable token and on one with none. -/
theorem spec_C3_witness :
    dateFromFilename "daily_conversations_2025-10-25.json" = "2025-10-25"
    ∧ dateFromFilename "notes.txt" = "Unknown Date" := by
  constructor
  · have h := (spec_C3 "daily_conversations_2025-10-25.json").1
      "2025-10-25.json".toList (by decide)
    rw [h]
    decide
  · exact (spec_C3 "notes.txt").2 (by decide)

/-! ### Claims about the Time Classifier (C4, C6) -/

/-- C4: for well-formed 12-hour timestamps, `calculate_duration` returns
the end minutes-since-midnight minus the start minutes-since-midnight as
a (possibly negative) integer, with no midnight rollover; in particular
duration("03:03 PM","03:08 PM") = 5. -/
theorem spec_C4 (s e : String) (sh sm eh em' : Nat)
    (hs : parseTime12 s = some (sh, sm)) (he : parseTime12 e = some (eh, em')) :
    calculate_duration s e
      = .ok (((eh * 60 + em' : Nat) : Int) - ((sh * 60 + sm : Nat) : Int))
    ∧ (eh * 60 + em' < sh * 60 + sm →
        ∃ k : Int, calculate_duration s e = .ok k ∧ k < 0)
    ∧ calculate_duration "03:03 PM" "03:08 PM" = .ok 5 := by
  have h1 : calculate_duration s e
      = .ok (((eh * 60 + em' : Nat) : Int) - ((sh * 60 + sm : Nat) : Int)) := by
    simp only [calculate_duration, hs, he]
    rw [Int.mul_tdiv_cancel _ (by norm_num)]
  refine ⟨h1, ?_, rfl⟩
  intro hlt
  exact ⟨_, h1, by omega⟩

/-- C4 (witness): the duration contract evaluated at the example pair and
at a midnight-crossing pair, where the result is negative. -/
theorem spec_C4_witness :
    calculate_duration "03:03 PM" "03:08 PM" = .ok 5
    ∧ calculate_duration "11:55 PM" "12:05 AM" = .ok (-1430) := by
  refine ⟨(spec_C4 "03:03 PM" "03:08 PM" 15 3 15 8 rfl rfl).2.2, ?_⟩
  have h := (spec_C4 "11:55 PM" "12:05 AM" 23 55 0 5 rfl rfl).1
  rw [h]
  norm_num

/-- C6: for every well-formed timestamp with 24-hour-clock hour h,
`categorize_time_period` returns Morning iff 6 ≤ h < 12, Afternoon iff
12 ≤ h < 17, Evening iff 17 ≤ h < 22, and Night otherwise; the eight
boundary inputs map to the claimed periods. -/
theorem spec_C6 (s : String) (h m : Nat) (hp : parseTime12 s = some (h, m)) :
    ((categorize_time_period s = .ok Period.morning ↔ 6 ≤ h ∧ h < 12)
      ∧ (categorize_time_period s = .ok Period.afternoon ↔ 12 ≤ h ∧ h < 17)
      ∧ (categorize_time_period s = .ok Period.evening ↔ 17 ≤ h ∧ h < 22)
      ∧ (categorize_time_period s = .ok Period.night ↔ h < 6 ∨ 22 ≤ h))
    ∧ (categorize_time_period "06:00 AM" = .ok Period.morning
      ∧ categorize_time_period "11:59 AM" = .ok Period.morning
      ∧ categorize_time_period "12:00 PM" = .ok Period.afternoon
      ∧ categorize_time_period "04:59 PM" = .ok Period.afternoon
      ∧ categorize_time_period "05:00 PM" = .ok Period.evening
      ∧ categorize_time_period "09:59 PM" = .ok Period.evening
      ∧ categorize_time_period "10:00 PM" = .ok Period.night
      ∧ categorize_time_period "05:59 AM" = .ok Period.night) := by
  constructor
  · simp only [categorize_time_period, hp]
    refine ⟨?_, ?_, ?_, ?_⟩ <;> split_ifs <;> simp_all <;> omega
  · exact ⟨rfl, rfl, rfl, rfl, rfl, rfl, rfl, rfl⟩

/-- C6 (witness): the period characterization applied at "06:00 AM". -/
theorem spec_C6_witness :
    categorize_time_period "06:00 AM" = .ok Period.morning
    ∧ categorize_time_period "11:59 AM" = .ok Period.morning
    ∧ categorize_time_period "12:00 PM" = .ok Period.afternoon
    ∧ categorize_time_period "04:59 PM" = .ok Period.afternoon
    ∧ categorize_time_period "05:00 PM" = .ok Period.evening
    ∧ categorize_time_period "09:59 PM" = .ok Period.evening
    ∧ categorize_time_period "10:00 PM" = .ok Period.night
    ∧ categorize_time_period "05:59 AM" = .ok Period.night :=
  (spec_C6 "06:00 AM" 6 0 rfl).2

/-! ### Helper lemmas about the topic sort -/

lemma insertTopic_perm (x : String × Nat) (l : List (String × Nat)) :
    (insertTopic x l).Perm (x :: l) := by
  induction l with
  | nil => exact List.Perm.refl _
  | cons y ys ih =>
    rw [insertTopic]
    split
    · exact List.Perm.refl _
    · exact (List.Perm.cons y ih).trans (List.Perm.swap x y ys)

lemma sortTopics_perm (l : List (String × Nat)) : (sortTopics l).Perm l := by
  induction l with
  | nil => exact List.Perm.refl _
  | cons x xs ih =>
    exact (insertTopic_perm x (sortTopics xs)).trans (List.Perm.cons x ih)

lemma mem_insertTopic {z x : String × Nat} {l : List (String × Nat)} :
    z ∈ insertTopic x l ↔ z = x ∨ z ∈ l := by
  rw [(insertTopic_perm x l).mem_iff, List.mem_cons]

lemma pairwise_insertTopic (x : String × Nat) {l : List (String × Nat)}
    (h : l.Pairwise (fun a b => b.2 ≤ a.2)) :
    (insertTopic x l).Pairwise (fun a b => b.2 ≤ a.2) := by
  induction l with
  | nil => simp [insertTopic]
  | cons y ys ih =>
    rw [insertTopic]
    split
    · next hyx =>
      refine List.Pairwise.cons ?_ h
      intro z hz
      rcases List.mem_cons.mp hz with rfl | hz'
      · exact hyx
      · have := (List.pairwise_cons.mp h).1 z hz'
        omega
    · next hyx =>
      refine List.Pairwise.cons ?_ (ih (List.pairwise_cons.mp h).2)
      intro z hz
      rcases mem_insertTopic.mp hz with rfl | hz'
      · omega
      · exact (List.pairwise_cons.mp h).1 z hz'

lemma sortTopics_pairwise (l : List (String × Nat)) :
    (sortTopics l).Pairwise (fun a b => b.2 ≤ a.2) := by
  induction l with
  | nil => simp [sortTopics]
  | cons x xs ih => exact pairwise_insertTopic x ih

lemma sublist_insertTopic (x : String × Nat) (l : List (String × Nat)) :
    l.Sublist (insertTopic x l) := by
  induction l with
  | nil => simp [insertTopic]
  | cons y ys ih =>
    rw [insertTopic]
    split
    · exact List.sublist_cons_self x (y :: ys)
    · exact List.Sublist.cons₂ y ih

lemma insertTopic_before {x b : String × Nat} (hle : b.2 ≤ x.2) :
    ∀ t, b ∈ t → [x, b].Sublist (insertTopic x t) := by
  intro t
  induction t with
  | nil => intro hb; simp at hb
  | cons y ys ih =>
    intro hb
    rw [insertTopic]
    split
    · exact List.Sublist.cons₂ x (List.singleton_sublist.mpr hb)
    · next hy =>
      rcases List.mem_cons.mp hb with rfl | hb'
      · omega
      · exact List.Sublist.cons y (ih hb')

lemma sortTopics_stable :
    ∀ (l : List (String × Nat)) (a b : String × Nat), a.2 = b.2 →
      [a, b].Sublist l → [a, b].Sublist (sortTopics l) := by
  intro l
  induction l with
  | nil => intro a b _ h; simp at h
  | cons x xs ih =>
    intro a b heq h
    rw [sortTopics]
    cases h with
    | cons _ h' =>
      exact (ih a b heq h').trans (sublist_insertTopic x _)
    | cons₂ _ h' =>
      have hb : b ∈ sortTopics xs :=
        (sortTopics_perm xs).mem_iff.mpr (List.singleton_sublist.mp h')
      exact insertTopic_before (by omega) _ hb

/-! ### Helper lemmas about the word-count table -/

lemma foldl_pres {α β : Type} {f : β → α → β} {P : β → Prop}
    (hf : ∀ b a, P b → P (f b a)) : ∀ (l : List α) (b : β), P b → P (l.foldl f b) := by
  intro l
  induction l with
  | nil => intro b hb; exact hb
  | cons a l ih => intro b hb; exact ih _ (hf b a hb)

lemma bumpCount_key {p : String × Nat} :
    ∀ (wc : List (String × Nat)) (w : String),
      p ∈ bumpCount wc w → p.1 = w ∨ p.1 ∈ wc.map Prod.fst := by
  intro wc
  induction wc with
  | nil =>
    intro w hp
    simp [bumpCount] at hp
    simp [hp]
  | cons kc rest ih =>
    intro w hp
    obtain ⟨k, c⟩ := kc
    rw [bumpCount] at hp
    split at hp
    · next hk =>
      rcases List.mem_cons.mp hp with rfl | hmem
      · exact Or.inl hk
      · exact Or.inr (List.mem_cons_of_mem _ (List.mem_map_of_mem Prod.fst hmem))
    · rcases List.mem_cons.mp hp with rfl | hmem
      · right
        simp
      · rcases ih w hmem with h | h
        · exact Or.inl h
        · exact Or.inr (List.mem_cons_of_mem _ h)

lemma addWord_pres {wc : List (String × Nat)} {w : String}
    (h : ∀ p ∈ wc, 3 ≤ p.1.length ∧ p.1 ∉ stop_words) :
    ∀ p ∈ addWord wc w, 3 ≤ p.1.length ∧ p.1 ∉ stop_words := by
  intro p hp
  simp only [addWord] at hp
  split at hp
  · exact h p hp
  · next hcond =>
    simp only [Bool.or_eq_true, decide_eq_true_eq, not_or] at hcond
    rcases bumpCount_key wc _ hp with h1 | h1
    · rw [h1]
      push_neg at hcond
      exact ⟨by omega, hcond.2⟩
    · obtain ⟨q, hq, hq1⟩ := List.mem_map.mp h1
      exact hq1 ▸ h q hq

lemma word_counts_prop (data : Log) :
    ∀ p ∈ word_counts data, 3 ≤ p.1.length ∧ p.1 ∉ stop_words := by
  have hadd : ∀ (wc : List (String × Nat)) (w : String),
      (∀ p ∈ wc, 3 ≤ p.1.length ∧ p.1 ∉ stop_words) →
      ∀ p ∈ addWord wc w, 3 ≤ p.1.length ∧ p.1 ∉ stop_words :=
    fun _ _ h => addWord_pres h
  have hmsg : ∀ (wc : List (String × Nat)) (message : Message),
      (∀ p ∈ wc, 3 ≤ p.1.length ∧ p.1 ∉ stop_words) →
      ∀ p ∈ (messageWords message).foldl addWord wc,
        3 ≤ p.1.length ∧ p.1 ∉ stop_words :=
    fun wc message h => foldl_pres hadd (messageWords message) wc h
  have hconv : ∀ (wc : List (String × Nat)) (conversation : Session),
      (∀ p ∈ wc, 3 ≤ p.1.length ∧ p.1 ∉ stop_words) →
      ∀ p ∈ conversation.messages.foldl
          (fun wc message => (messageWords message).foldl addWord wc) wc,
        3 ≤ p.1.length ∧ p.1 ∉ stop_words :=
    fun wc conversation h => foldl_pres hmsg conversation.messages wc h
  exact foldl_pres hconv data.conversations [] (by simp)

/-! ### Claims about the Topic Extractor (C7, C8) -/

/-- C7: the Topic Extractor's output is the word-count table sorted by
count descending with ties in first-insertion order (stably: any
equal-count pair in table order stays in that order), truncated to the
first top_n entries, the full vocabulary being returned when it is
smaller than top_n. -/
theorem spec_C7 (data : Log) (n : Nat) (hn : 0 < n) :
    extract_topics data n = (sorted_topics data).take n
    ∧ (sorted_topics data).Perm (word_counts data)
    ∧ (sorted_topics data).Pairwise (fun a b => b.2 ≤ a.2)
    ∧ (∀ a b : String × Nat, a.2 = b.2 → [a, b].Sublist (word_counts data) →
        [a, b].Sublist (sorted_topics data))
    ∧ (extract_topics data n).length = min n (word_counts data).length
    ∧ ((word_counts data).length ≤ n → extract_topics data n = sorted_topics data) := by
  refine ⟨rfl, sortTopics_perm _, sortTopics_pairwise _, ?_, ?_, ?_⟩
  · intro a b heq hsub
    exact sortTopics_stable _ a b heq hsub
  · rw [extract_topics, List.length_take, sorted_topics,
      (sortTopics_perm (word_counts data)).length_eq]
  · intro hle
    rw [extract_topics]
    exact List.take_of_length_le
      (by rw [sorted_topics, (sortTopics_perm (word_counts data)).length_eq]; exact hle)

/-- C7 (witness): the truncation equation applied to a concrete log with
top_n = 2. -/
theorem spec_C7_witness :
    extract_topics topicLog 2 = (sorted_topics topicLog).take 2 :=
  (spec_C7 topicLog 2 (by decide)).1

/-- C8: every entry of the Topic Extractor's output has a key of length at
least 3 that is not a stop word; counting is case-insensitive over
punctuation-stripped whitespace tokens: the single-message examples
evaluate as claimed. -/
theorem spec_C8 (data : Log) (n : Nat) (p : String × Nat)
    (hp : p ∈ extract_topics data n) :
    (3 ≤ p.1.length ∧ p.1 ∉ stop_words)
    ∧ extract_topics topicLog 15
        = [("cat", 1), ("sat", 1), ("mat", 1), ("dog", 1), ("ran", 1)]
    ∧ extract_topics caseLog 15 = [("cat", 2)] := by
  refine ⟨?_, rfl, rfl⟩
  have h1 : p ∈ sorted_topics data := List.mem_of_mem_take hp
  have h2 : p ∈ word_counts data := (sortTopics_perm (word_counts data)).mem_iff.mp h1
  exact word_counts_prop data p h2

/-- C8 (witness): the filter property applied at the entry ("cat", 1) of
the topic-filtering example. -/
theorem spec_C8_witness :
    (3 ≤ ("cat" : String).length ∧ ("cat" : String) ∉ stop_words)
    ∧ extract_topics topicLog 15
        = [("cat", 1), ("sat", 1), ("mat", 1), ("dog", 1), ("ran", 1)]
    ∧ extract_topics caseLog 15 = [("cat", 2)] :=
  spec_C8 topicLog 15 ("cat", 1) (by decide)

/-! ### Helper lemmas about the message loop of the Aggregator -/

lemma foldl_pm_date : ∀ (msgs : List Message) (st : Stats),
    (msgs.foldl processMessage st).date = st.date := by
  intro msgs
  induction msgs with
  | nil => intro st; rfl
  | cons m ms ih => intro st; rw [List.foldl_cons]; exact ih (processMessage st m)

lemma foldl_pm_num : ∀ (msgs : List Message) (st : Stats),
    (msgs.foldl processMessage st).num_conversations = st.num_conversations := by
  intro msgs
  induction msgs with
  | nil => intro st; rfl
  | cons m ms ih => intro st; rw [List.foldl_cons]; exact ih (processMessage st m)

lemma foldl_pm_participants : ∀ (msgs : List Message) (st : Stats),
    (msgs.foldl processMessage st).participants = st.participants := by
  intro msgs
  induction msgs with
  | nil => intro st; rfl
  | cons m ms ih => intro st; rw [List.foldl_cons]; exact ih (processMessage st m)

lemma foldl_pm_clengths : ∀ (msgs : List Message) (st : Stats),
    (msgs.foldl processMessage st).conversation_lengths = st.conversation_lengths := by
  intro msgs
  induction msgs with
  | nil => intro st; rfl
  | cons m ms ih => intro st; rw [List.foldl_cons]; exact ih (processMessage st m)

lemma foldl_pm_short : ∀ (msgs : List Message) (st : Stats),
    (msgs.foldl processMessage st).shortest_conversation = st.shortest_conversation := by
  intro msgs
  induction msgs with
  | nil => intro st; rfl
  | cons m ms ih => intro st; rw [List.foldl_cons]; exact ih (processMessage st m)

lemma foldl_pm_long : ∀ (msgs : List Message) (st : Stats),
    (msgs.foldl processMessage st).longest_conversation = st.longest_conversation := by
  intro msgs
  induction msgs with
  | nil => intro st; rfl
  | cons m ms ih => intro st; rw [List.foldl_cons]; exact ih (processMessage st m)

lemma foldl_pm_periods : ∀ (msgs : List Message) (st : Stats),
    (msgs.foldl processMessage st).time_periods = st.time_periods := by
  intro msgs
  induction msgs with
  | nil => intro st; rfl
  | cons m ms ih => intro st; rw [List.foldl_cons]; exact ih (processMessage st m)

lemma foldl_pm_started : ∀ (msgs : List Message) (st : Stats),
    (msgs.foldl processMessage st).conversations_started_by
      = st.conversations_started_by := by
  intro msgs
  induction msgs with
  | nil => intro st; rfl
  | cons m ms ih => intro st; rw [List.foldl_cons]; exact ih (processMessage st m)

lemma foldl_pm_total : ∀ (msgs : List Message) (st : Stats),
    (msgs.foldl processMessage st).total_messages = st.total_messages + msgs.length := by
  intro msgs
  induction msgs with
  | nil => intro st; rfl
  | cons m ms ih =>
    intro st
    rw [List.foldl_cons]
    have h := ih (processMessage st m)
    rw [h]
    show st.total_messages + 1 + ms.length = st.total_messages + (m :: ms).length
    simp [List.length_cons]
    omega

lemma map_bumpFn_sum : ∀ (l : List String) (f : String → Nat) (a : String),
    l.Nodup → a ∈ l → (l.map (bumpFn f a)).sum = (l.map f).sum + 1 := by
  intro l
  induction l with
  | nil => intro f a _ ha; simp at ha
  | cons b t ih =>
    intro f a hnd ha
    obtain ⟨hbt, hndt⟩ := List.nodup_cons.mp hnd
    rcases List.mem_cons.mp ha with rfl | hat
    · have ht : ∀ y ∈ t, bumpFn f a y = f y := by
        intro y hy
        have hya : y ≠ a := fun hcontra => hbt (hcontra ▸ hy)
        simp [bumpFn, hya]
      rw [List.map_cons, List.map_cons, List.sum_cons, List.sum_cons,
        List.map_congr_left ht]
      simp [bumpFn]
      omega
    · have hba : b ≠ a := fun hcontra => hbt (hcontra ▸ hat)
      rw [List.map_cons, List.map_cons, List.sum_cons, List.sum_cons, ih f a hndt hat]
      simp [bumpFn, hba]
      omega

lemma foldl_pm_partSum : ∀ (msgs : List Message) (st : Stats),
    st.participants.Nodup → (∀ m ∈ msgs, m.role ∈ st.participants) →
    partSum (msgs.foldl processMessage st) = partSum st + msgs.length := by
  intro msgs
  induction msgs with
  | nil => intro st _ _; rfl
  | cons m ms ih =>
    intro st hnd hroles
    rw [List.foldl_cons]
    have hstep : partSum (processMessage st m) = partSum st + 1 := by
      show ((processMessage st m).participants.map
        (processMessage st m).messages_by_participant).sum = partSum st + 1
      exact map_bumpFn_sum st.participants st.messages_by_participant m.role hnd
        (hroles m (List.mem_cons_self m ms))
    have hrec := ih (processMessage st m) hnd
      (fun m' hm' => hroles m' (List.mem_cons_of_mem m hm'))
    rw [hrec, hstep]
    simp [List.length_cons]
    omega

lemma periodSum_addPeriod (tp : TimePeriods) (p : Period) (k : Nat) :
    periodSum (addPeriod tp p k) = periodSum tp + k := by
  cases p <;> simp [addPeriod, periodSum] <;> omega

lemma foldl_pm_openerSum : ∀ (msgs : List Message) (st : Stats),
    openerSum (msgs.foldl processMessage st) = openerSum st := by
  intro msgs
  induction msgs with
  | nil => intro st; rfl
  | cons m ms ih => intro st; rw [List.foldl_cons]; exact ih (processMessage st m)

/-! ### Helper lemmas about the session loop of the Aggregator -/

lemma processSession_ok (i : Nat) (st : Stats) (c : Session) (st' : Stats)
    (h : processSession i st c = .ok st') :
    ∃ conv_info : ConvInfo,
      conv_info.message_count = c.messages.length
      ∧ st'.date = st.date
      ∧ st'.num_conversations = st.num_conversations
      ∧ st'.participants = st.participants
      ∧ st'.conversation_lengths = st.conversation_lengths ++ [conv_info]
      ∧ st'.shortest_conversation = shortStep st.shortest_conversation conv_info
      ∧ st'.longest_conversation = longStep st.longest_conversation conv_info
      ∧ st'.total_messages = st.total_messages + c.messages.length
      ∧ periodSum st'.time_periods = periodSum st.time_periods + c.messages.length
      ∧ (st.participants.Nodup → (∀ m ∈ c.messages, m.role ∈ st.participants) →
          partSum st' = partSum st + c.messages.length
          ∧ openerSum st' = openerSum st + 1) := by
  simp only [processSession] at h
  split at h
  · exact absurd h (by simp)
  · rename_i x1 duration hdur
    split at h
    · exact absurd h (by simp)
    · rename_i x2 time_period hper
      split at h
      · exact absurd h (by simp)
      · rename_i x3 m0 tail hmsg
        injection h with h
        subst h
        refine ⟨⟨i + 1, c.messages.length, duration, c.start_time, c.end_time,
          time_period⟩, rfl, ?_, ?_, ?_, ?_, ?_, ?_, ?_, ?_, ?_⟩
        · rw [foldl_pm_date]
        · rw [foldl_pm_num]
        · rw [foldl_pm_participants]
        · rw [foldl_pm_clengths]
        · rw [foldl_pm_short]
        · rw [foldl_pm_long]
        · rw [foldl_pm_total]
        · rw [foldl_pm_periods]
          exact periodSum_addPeriod st.time_periods time_period c.messages.length
        · intro hnd hroles
          constructor
          · refine Eq.trans (foldl_pm_partSum c.messages _ ?_ ?_) rfl
            · exact hnd
            · exact hroles
          · refine Eq.trans (foldl_pm_openerSum c.messages _) ?_
            exact map_bumpFn_sum st.participants st.conversations_started_by m0.role
              hnd (hroles m0 (by rw [hmsg]; exact List.mem_cons_self m0 tail))

lemma calculate_duration_ok {a b : String} {p q : Nat × Nat}
    (ha : parseTime12 a = some p) (hb : parseTime12 b = some q) :
    ∃ k, calculate_duration a b = .ok k := by
  refine ⟨((((q.1 * 60 + q.2 : Nat) : Int) - ((p.1 * 60 + p.2 : Nat) : Int)) * 60).tdiv 60, ?_⟩
  simp only [calculate_duration, ha, hb]

lemma categorize_ok {a : String} {p : Nat × Nat} (ha : parseTime12 a = some p) :
    ∃ r, categorize_time_period a = .ok r := by
  obtain ⟨h, m⟩ := p
  simp only [categorize_time_period, ha]
  split_ifs <;> exact ⟨_, rfl⟩

lemma processSession_empty (i : Nat) (st : Stats) (c : Session)
    (hs : (parseTime12 c.start_time).isSome = true)
    (he : (parseTime12 c.end_time).isSome = true)
    (hm : c.messages = []) : processSession i st c = .error .emptySession := by
  obtain ⟨p, hp⟩ := Option.isSome_iff_exists.mp hs
  obtain ⟨q, hq⟩ := Option.isSome_iff_exists.mp he
  obtain ⟨k, hk⟩ := calculate_duration_ok hp hq
  obtain ⟨r, hr⟩ := categorize_ok hp
  simp only [processSession, hk, hr, hm]

lemma processSession_isOk (i : Nat) (st : Stats) (c : Session)
    (hs : (parseTime12 c.start_time).isSome = true)
    (he : (parseTime12 c.end_time).isSome = true)
    (hm : c.messages ≠ []) : ∃ st', processSession i st c = .ok st' := by
  obtain ⟨p, hp⟩ := Option.isSome_iff_exists.mp hs
  obtain ⟨q, hq⟩ := Option.isSome_iff_exists.mp he
  obtain ⟨k, hk⟩ := calculate_duration_ok hp hq
  obtain ⟨r, hr⟩ := categorize_ok hp
  obtain ⟨m0, tail, hmt⟩ := List.exists_cons_of_ne_nil hm
  cases hps : processSession i st c with
  | ok st' => exact ⟨st', rfl⟩
  | error e =>
    simp only [processSession, hk, hr, hmt] at hps
    exact absurd hps (by simp)

lemma statsLoop_error : ∀ (cs : List Session) (i : Nat) (st : Stats),
    (∀ c ∈ cs, (parseTime12 c.start_time).isSome = true
      ∧ (parseTime12 c.end_time).isSome = true) →
    (∃ c ∈ cs, c.messages = []) →
    statsLoop i st cs = .error .emptySession := by
  intro cs
  induction cs with
  | nil =>
    intro i st _ hempty
    simp at hempty
  | cons c rest ih =>
    intro i st htimes hempty
    by_cases hm : c.messages = []
    · have hps := processSession_empty i st c
        (htimes c (List.mem_cons_self c rest)).1 (htimes c (List.mem_cons_self c rest)).2 hm
      rw [statsLoop, hps]
    · obtain ⟨st', hps⟩ := processSession_isOk i st c
        (htimes c (List.mem_cons_self c rest)).1 (htimes c (List.mem_cons_self c rest)).2 hm
      rw [statsLoop, hps]
      apply ih
      · intro c' hc'
        exact htimes c' (List.mem_cons_of_mem c hc')
      · rcases hempty with ⟨c', hc', hce⟩
        rcases List.mem_cons.mp hc' with rfl | hc''
        · exact absurd hce hm
        · exact ⟨c', hc'', hce⟩

/-! ### Claim about empty sessions (C5) -/

/-- C5: a canonical Log (label present, timestamps well-formed) that
contains a session with an empty message sequence makes the Aggregator
fail with the empty-session error; no statistics record is produced. -/
theorem spec_C5 (log : Log) (hdate : log.date.isSome = true)
    (htimes : ∀ c ∈ log.conversations, (parseTime12 c.start_time).isSome = true
      ∧ (parseTime12 c.end_time).isSome = true)
    (hempty : ∃ c ∈ log.conversations, c.messages = []) :
    get_basic_stats log = .error Err.emptySession := by
  obtain ⟨d, hd⟩ := Option.isSome_iff_exists.mp hdate
  simp only [get_basic_stats, hd]
  exact statsLoop_error log.conversations 0 _ htimes hempty

/-- C5 (witness): the empty-session failure on a concrete one-session log
with an empty message list. -/
theorem spec_C5_witness :
    get_basic_stats emptySessionLog = .error Err.emptySession :=
  spec_C5 emptySessionLog rfl (by decide) (by decide)

/-! ### Helper lemmas about date-threading (C2) -/

lemma processMessage_setDate (x : String) (st : Stats) (message : Message) :
    processMessage (setDate x st) message = setDate x (processMessage st message) := rfl

lemma foldl_processMessage_setDate (x : String) :
    ∀ (msgs : List Message) (st : Stats),
      msgs.foldl processMessage (setDate x st) = setDate x (msgs.foldl processMessage st) := by
  intro msgs
  induction msgs with
  | nil => intro st; rfl
  | cons m ms ih =>
    intro st
    rw [List.foldl_cons, List.foldl_cons, processMessage_setDate]
    exact ih (processMessage st m)

lemma foldl_processMessage_setDate2 (x : String) :
    ∀ (msgs : List Message) (st1 st2 : Stats), st1 = setDate x st2 →
      msgs.foldl processMessage st1 = setDate x (msgs.foldl processMessage st2) :=
  fun msgs st1 st2 h => h ▸ foldl_processMessage_setDate x msgs st2

lemma processSession_setDate (x : String) (i : Nat) (st : Stats) (c : Session) :
    processSession i (setDate x st) c = (processSession i st c).map (setDate x) := by
  unfold processSession
  cases calculate_duration c.start_time c.end_time with
  | error e => rfl
  | ok duration =>
    cases categorize_time_period c.start_time with
    | error e => rfl
    | ok time_period =>
      cases hm : c.messages with
      | nil => rfl
      | cons m0 rest =>
        exact congrArg Except.ok (foldl_processMessage_setDate2 x (m0 :: rest) _ _ rfl)

lemma statsLoop_setDate (x : String) : ∀ (cs : List Session) (i : Nat) (st : Stats),
    statsLoop i (setDate x st) cs = (statsLoop i st cs).map (setDate x) := by
  intro cs
  induction cs with
  | nil => intro i st; rfl
  | cons c rest ih =>
    intro i st
    rw [statsLoop, statsLoop, processSession_setDate]
    cases processSession i st c with
    | error e => rfl
    | ok st' => exact ih (i + 1) st'

lemma get_basic_stats_erase (d : String) (cs : List Session) :
    (get_basic_stats ⟨some d, cs⟩).map eraseDate
      = (statsLoop 0 (initStats ""
          (sortStrs ((cs.flatMap fun conversation =>
            conversation.messages.map (·.role)).dedup)) cs.length) cs).map eraseDate := by
  show (statsLoop 0 (initStats d
    (sortStrs ((cs.flatMap fun conversation =>
      conversation.messages.map (·.role)).dedup)) cs.length) cs).map eraseDate = _
  rw [show (initStats d
      (sortStrs ((cs.flatMap fun conversation =>
        conversation.messages.map (·.role)).dedup)) cs.length)
    = setDate d (initStats ""
      (sortStrs ((cs.flatMap fun conversation =>
        conversation.messages.map (·.role)).dedup)) cs.length) from rfl]
  rw [statsLoop_setDate]
  cases statsLoop 0 (initStats ""
    (sortStrs ((cs.flatMap fun conversation =>
      conversation.messages.map (·.role)).dedup)) cs.length) cs with
  | error e => rfl
  | ok st => rfl

/-! ### Claim about format equivalence (C2) -/

/-- C2: normalizing a bare sequence of sessions and normalizing the same
sequence wrapped as a mapping with a `conversations` key and a label
field, then aggregating, produce statistics records that agree in every
field except the label. -/
theorem spec_C2 (sessions : List Session) (label hint : String) :
    ((load_conversation_file (RawInput.list sessions) hint).bind get_basic_stats).map
        eraseDate
      = ((load_conversation_file
            (RawInput.dict (some label) (some sessions)) hint).bind get_basic_stats).map
        eraseDate := by
  show (get_basic_stats ⟨some (dateFromFilename hint), sessions⟩).map eraseDate
    = (get_basic_stats ⟨some label, sessions⟩).map eraseDate
  rw [get_basic_stats_erase, get_basic_stats_erase]

/-! ### Helper lemmas about the whole session loop -/

lemma statsLoop_ok : ∀ (cs : List Session) (i : Nat) (st st' : Stats),
    statsLoop i st cs = .ok st' →
    st'.date = st.date
    ∧ st'.num_conversations = st.num_conversations
    ∧ st'.participants = st.participants
    ∧ st'.conversation_lengths.map (fun ci => ci.message_count)
        = st.conversation_lengths.map (fun ci => ci.message_count)
          ++ cs.map (fun c => c.messages.length)
    ∧ (∃ newInfos : List ConvInfo,
        st'.conversation_lengths = st.conversation_lengths ++ newInfos
        ∧ st'.shortest_conversation = newInfos.foldl shortStep st.shortest_conversation
        ∧ st'.longest_conversation = newInfos.foldl longStep st.longest_conversation)
    ∧ st'.total_messages = st.total_messages + (cs.map (fun c => c.messages.length)).sum
    ∧ periodSum st'.time_periods
        = periodSum st.time_periods + (cs.map (fun c => c.messages.length)).sum
    ∧ (st.participants.Nodup →
        (∀ c ∈ cs, ∀ m ∈ c.messages, m.role ∈ st.participants) →
        partSum st' = partSum st + (cs.map (fun c => c.messages.length)).sum
        ∧ openerSum st' = openerSum st + cs.length) := by
  intro cs
  induction cs with
  | nil =>
    intro i st st' h
    rw [statsLoop] at h
    injection h with h
    subst h
    exact ⟨rfl, rfl, rfl, by simp, ⟨[], by simp, rfl, rfl⟩, by simp, by simp,
      fun _ _ => ⟨by simp, by simp⟩⟩
  | cons c rest ih =>
    intro i st st' h
    rw [statsLoop] at h
    cases hps : processSession i st c with
    | error e =>
      rw [hps] at h
      exact absurd h (by simp)
    | ok st1 =>
      rw [hps] at h
      obtain ⟨ci, hci, d1, n1, p1, l1, s1, g1, t1, e1, u1⟩ :=
        processSession_ok i st c st1 hps
      obtain ⟨d2, n2, p2, l2, ⟨newInfos, ln2, s2, g2⟩, t2, e2, u2⟩ := ih (i + 1) st1 st' h
      refine ⟨d2.trans d1, n2.trans n1, p2.trans p1, ?_, ⟨ci :: newInfos, ?_, ?_, ?_⟩,
        ?_, ?_, ?_⟩
      · rw [l2, l1]
        simp [hci]
      · rw [ln2, l1, List.append_assoc]
        rfl
      · rw [s2, s1]
        rfl
      · rw [g2, g1]
        rfl
      · rw [t2, t1]
        simp only [List.map_cons, List.sum_cons]
        omega
      · rw [e2, e1]
        simp only [List.map_cons, List.sum_cons]
        omega
      · intro hnd hroles
        have hnd1 : st1.participants.Nodup := by rw [p1]; exact hnd
        have hroles1 : ∀ c' ∈ rest, ∀ m ∈ c'.messages, m.role ∈ st1.participants := by
          intro c' hc' m hm
          rw [p1]
          exact hroles c' (List.mem_cons_of_mem c hc') m hm
        obtain ⟨ps2, os2⟩ := u2 hnd1 hroles1
        obtain ⟨ps1, os1⟩ := u1 hnd (fun m hm => hroles c (List.mem_cons_self c rest) m hm)
        constructor
        · rw [ps2, ps1]
          simp only [List.map_cons, List.sum_cons]
          omega
        · rw [os2, os1]
          simp only [List.length_cons]
          omega

/-! ### Helper lemmas about the running shortest/longest fold -/

lemma foldl_extremeStep_some (lt : Nat → Nat → Prop) [DecidableRel lt]
    (hirr : ∀ a, ¬ lt a a)
    (htrans : ∀ a b c, lt a b → lt b c → lt a c)
    (hcmp : ∀ a b c, lt a b → ¬ lt c b → lt a c) :
    ∀ (l : List ConvInfo) (c : ConvInfo),
      ∃ (r : ConvInfo) (idx : Nat),
        l.foldl (extremeStep lt) (some c) = some r
        ∧ (c :: l).get? idx = some r
        ∧ (∀ j x, (c :: l).get? j = some x → ¬ lt x.message_count r.message_count)
        ∧ (∀ j x, j < idx → (c :: l).get? j = some x →
            lt r.message_count x.message_count) := by
  intro l
  induction l with
  | nil =>
    intro c
    refine ⟨c, 0, rfl, rfl, ?_, ?_⟩
    · intro j x hj
      cases j with
      | zero =>
        rw [List.get?_cons_zero] at hj
        injection hj with hj
        subst hj
        exact hirr _
      | succ j' =>
        rw [List.get?_cons_succ] at hj
        simp at hj
    · intro j x hjlt hj
      exact absurd hjlt (Nat.not_lt_zero j)
  | cons d l' ih =>
    intro c
    have hstep : List.foldl (extremeStep lt) (some c) (d :: l')
        = List.foldl (extremeStep lt)
            (some (if lt d.message_count c.message_count then d else c)) l' := by
      rw [List.foldl_cons]
      congr 1
      rw [extremeStep]
      split <;> rfl
    by_cases hd : lt d.message_count c.message_count
    · rw [if_pos hd] at hstep
      obtain ⟨r, idx, hfold, hget, hall, hfirst⟩ := ih d
      refine ⟨r, idx + 1, hstep.trans hfold, ?_, ?_, ?_⟩
      · rw [List.get?_cons_succ]
        exact hget
      · intro j x hj
        cases j with
        | zero =>
          rw [List.get?_cons_zero] at hj
          injection hj with hj
          subst hj
          intro hcr
          exact hall 0 d rfl (htrans _ _ _ hd hcr)
        | succ j' =>
          rw [List.get?_cons_succ] at hj
          exact hall j' x hj
      · intro j x hjlt hj
        cases j with
        | zero =>
          rw [List.get?_cons_zero] at hj
          injection hj with hj
          subst hj
          cases idx with
          | zero =>
            rw [List.get?_cons_zero] at hget
            injection hget with hget
            subst hget
            exact hd
          | succ k =>
            exact htrans _ _ _ (hfirst 0 d (Nat.succ_pos k) rfl) hd
        | succ j' =>
          rw [List.get?_cons_succ] at hj
          exact hfirst j' x (Nat.lt_of_succ_lt_succ hjlt) hj
    · rw [if_neg hd] at hstep
      obtain ⟨r, idx, hfold, hget, hall, hfirst⟩ := ih c
      cases idx with
      | zero =>
        rw [List.get?_cons_zero] at hget
        injection hget with hget
        refine ⟨r, 0, hstep.trans hfold, ?_, ?_, ?_⟩
        · rw [List.get?_cons_zero, hget]
        · intro j x hj
          cases j with
          | zero =>
            rw [List.get?_cons_zero] at hj
            injection hj with hj
            subst hj
            exact hall 0 c rfl
          | succ j' =>
            rw [List.get?_cons_succ] at hj
            cases j' with
            | zero =>
              rw [List.get?_cons_zero] at hj
              injection hj with hj
              subst hj
              rw [← hget]
              exact hd
            | succ j'' =>
              rw [List.get?_cons_succ] at hj
              exact hall (j'' + 1) x (by rw [List.get?_cons_succ]; exact hj)
        · intro j x hjlt hj
          exact absurd hjlt (Nat.not_lt_zero j)
      | succ k =>
        rw [List.get?_cons_succ] at hget
        refine ⟨r, k + 2, hstep.trans hfold, ?_, ?_, ?_⟩
        · rw [List.get?_cons_succ, List.get?_cons_succ]
          exact hget
        · intro j x hj
          cases j with
          | zero =>
            rw [List.get?_cons_zero] at hj
            injection hj with hj
            subst hj
            exact hall 0 c rfl
          | succ j' =>
            rw [List.get?_cons_succ] at hj
            cases j' with
            | zero =>
              rw [List.get?_cons_zero] at hj
              injection hj with hj
              subst hj
              intro hdr
              exact hd (htrans _ _ _ hdr (hfirst 0 c (Nat.succ_pos k) rfl))
            | succ j'' =>
              rw [List.get?_cons_succ] at hj
              exact hall (j'' + 1) x (by rw [List.get?_cons_succ]; exact hj)
        · intro j x hjlt hj
          cases j with
          | zero =>
            rw [List.get?_cons_zero] at hj
            injection hj with hj
            subst hj
            exact hfirst 0 c (Nat.succ_pos k) rfl
          | succ j' =>
            rw [List.get?_cons_succ] at hj
            cases j' with
            | zero =>
              rw [List.get?_cons_zero] at hj
              injection hj with hj
              subst hj
              exact hcmp _ _ _ (hfirst 0 c (Nat.succ_pos k) rfl) hd
            | succ j'' =>
              rw [List.get?_cons_succ] at hj
              refine hfirst (j'' + 1) x ?_ (by rw [List.get?_cons_succ]; exact hj)
              omega

lemma foldl_extremeStep_none (lt : Nat → Nat → Prop) [DecidableRel lt]
    (hirr : ∀ a, ¬ lt a a)
    (htrans : ∀ a b c, lt a b → lt b c → lt a c)
    (hcmp : ∀ a b c, lt a b → ¬ lt c b → lt a c)
    (l : List ConvInfo) :
    (l = [] ∧ l.foldl (extremeStep lt) none = none)
    ∨ ∃ (r : ConvInfo) (idx : Nat),
        l.foldl (extremeStep lt) none = some r
        ∧ l.get? idx = some r
        ∧ (∀ j x, l.get? j = some x → ¬ lt x.message_count r.message_count)
        ∧ (∀ j x, j < idx → l.get? j = some x →
            lt r.message_count x.message_count) := by
  cases l with
  | nil => exact Or.inl ⟨rfl, rfl⟩
  | cons c l' =>
    obtain ⟨r, idx, hfold, hget, hall, hfirst⟩ :=
      foldl_extremeStep_some lt hirr htrans hcmp l' c
    exact Or.inr ⟨r, idx, hfold, hget, hall, hfirst⟩

/-! ### Helper lemmas about the participant set -/

lemma insertStr_perm (x : String) (l : List String) : (insertStr x l).Perm (x :: l) := by
  induction l with
  | nil => exact List.Perm.refl _
  | cons y ys ih =>
    rw [insertStr]
    split
    · exact List.Perm.refl _
    · exact (List.Perm.cons y ih).trans (List.Perm.swap x y ys)

lemma sortStrs_perm (l : List String) : (sortStrs l).Perm l := by
  induction l with
  | nil => exact List.Perm.refl _
  | cons x xs ih =>
    exact (insertStr_perm x (sortStrs xs)).trans (List.Perm.cons x ih)

lemma detect_participants_nodup (data : Log) : (detect_participants data).Nodup := by
  unfold detect_participants
  exact ((sortStrs_perm _).nodup_iff).mpr (List.nodup_dedup _)

lemma mem_detect_participants {data : Log} {c : Session} {m : Message}
    (hc : c ∈ data.conversations) (hm : m ∈ c.messages) :
    m.role ∈ detect_participants data := by
  unfold detect_participants
  rw [(sortStrs_perm _).mem_iff, List.mem_dedup]
  exact List.mem_flatMap.mpr ⟨c, hc, List.mem_map_of_mem _ hm⟩

lemma sum_map_zero (l : List String) : (l.map (fun _ => (0 : Nat))).sum = 0 := by
  induction l with
  | nil => rfl
  | cons x xs ih => simp [ih]

/-! ### Claims about the Aggregator's record (C9, C10) -/

/-- C9: the stored session summaries follow the sessions in input order
(same message counts, in order), and the stored shortest (respectively
longest) summary is the first one attaining the minimum (respectively
maximum) message count: every summary has a count at least (at most) the
stored one, and every summary strictly before the stored one has a
strictly larger (smaller) count, so a later tie never replaces it. -/
theorem spec_C9 (log : Log) (s : Stats) (hok : get_basic_stats log = .ok s) :
    s.conversation_lengths.map (fun ci => ci.message_count)
        = log.conversations.map (fun c => c.messages.length)
    ∧ (∀ r, s.shortest_conversation = some r →
        ∃ idx, s.conversation_lengths.get? idx = some r
          ∧ (∀ j x, s.conversation_lengths.get? j = some x →
              r.message_count ≤ x.message_count)
          ∧ (∀ j x, j < idx → s.conversation_lengths.get? j = some x →
              r.message_count < x.message_count))
    ∧ (s.shortest_conversation = none → log.conversations = [])
    ∧ (∀ r, s.longest_conversation = some r →
        ∃ idx, s.conversation_lengths.get? idx = some r
          ∧ (∀ j x, s.conversation_lengths.get? j = some x →
              x.message_count ≤ r.message_count)
          ∧ (∀ j x, j < idx → s.conversation_lengths.get? j = some x →
              x.message_count < r.message_count))
    ∧ (s.longest_conversation = none → log.conversations = []) := by
  have hirr_lt : ∀ a : Nat, ¬ a < a := fun a => Nat.lt_irrefl a
  have htrans_lt : ∀ a b c : Nat, a < b → b < c → a < c :=
    fun _ _ _ h1 h2 => Nat.lt_trans h1 h2
  have hcmp_lt : ∀ a b c : Nat, a < b → ¬ c < b → a < c := by
    intro a b c h1 h2
    omega
  have hirr_gt : ∀ a : Nat, ¬ a > a := fun a => Nat.lt_irrefl a
  have htrans_gt : ∀ a b c : Nat, a > b → b > c → a > c :=
    fun _ _ _ h1 h2 => Nat.lt_trans h2 h1
  have hcmp_gt : ∀ a b c : Nat, a > b → ¬ c > b → a > c := by
    intro a b c h1 h2
    omega
  simp only [get_basic_stats] at hok
  split at hok
  · exact absurd hok (by simp)
  · obtain ⟨hdate, hnum, hpart, hmap, ⟨newInfos, hnew, hshort, hlong⟩, htot, hper, hsums⟩ :=
      statsLoop_ok log.conversations 0 _ s hok
    simp only [initStats, List.map_nil, List.nil_append] at hmap hnew hshort hlong
    simp only [shortStep] at hshort
    simp only [longStep] at hlong
    refine ⟨hmap, ?_, ?_, ?_, ?_⟩
    · intro r hr
      rcases foldl_extremeStep_none (· < ·) hirr_lt htrans_lt hcmp_lt newInfos with
        ⟨hnil, hfold⟩ | ⟨r', idx, hfold, hget, hall, hfirst⟩
      · rw [hshort, hfold] at hr
        exact absurd hr (by simp)
      · rw [hshort, hfold] at hr
        injection hr with hr
        subst hr
        refine ⟨idx, ?_, ?_, ?_⟩
        · rw [hnew]
          exact hget
        · intro j x hj
          rw [hnew] at hj
          exact Nat.not_lt.mp (hall j x hj)
        · intro j x hjlt hj
          rw [hnew] at hj
          exact hfirst j x hjlt hj
    · intro hr
      rcases foldl_extremeStep_none (· < ·) hirr_lt htrans_lt hcmp_lt newInfos with
        ⟨hnil, hfold⟩ | ⟨r', idx, hfold, hget, hall, hfirst⟩
      · rw [hnil] at hnew
        rw [hnew] at hmap
        simp at hmap
        exact hmap
      · rw [hshort, hfold] at hr
        exact absurd hr (by simp)
    · intro r hr
      rcases foldl_extremeStep_none (· > ·) hirr_gt htrans_gt hcmp_gt newInfos with
        ⟨hnil, hfold⟩ | ⟨r', idx, hfold, hget, hall, hfirst⟩
      · rw [hlong, hfold] at hr
        exact absurd hr (by simp)
      · rw [hlong, hfold] at hr
        injection hr with hr
        subst hr
        refine ⟨idx, ?_, ?_, ?_⟩
        · rw [hnew]
          exact hget
        · intro j x hj
          rw [hnew] at hj
          exact Nat.not_lt.mp (hall j x hj)
        · intro j x hjlt hj
          rw [hnew] at hj
          exact hfirst j x hjlt hj
    · intro hr
      rcases foldl_extremeStep_none (· > ·) hirr_gt htrans_gt hcmp_gt newInfos with
        ⟨hnil, hfold⟩ | ⟨r', idx, hfold, hget, hall, hfirst⟩
      · rw [hnil] at hnew
        rw [hnew] at hmap
        simp at hmap
        exact hmap
      · rw [hlong, hfold] at hr
        exact absurd hr (by simp)

/-- C9 (witness): the summaries of the end-to-end sample log follow its
sessions in input order with matching message counts. -/
theorem spec_C9_witness :
    sampleStats.conversation_lengths.map (fun ci => ci.message_count)
      = sampleLog.conversations.map (fun c => c.messages.length) :=
  (spec_C9 sampleLog sampleStats rfl).1

/-- C10: whenever the Aggregator succeeds, the four period-of-day totals
sum to the total message count, the per-participant message counts sum to
the total message count, and the per-participant opener counts sum to the
session count. -/
theorem spec_C10 (log : Log) (s : Stats) (hok : get_basic_stats log = .ok s) :
    s.time_periods.morning + s.time_periods.afternoon + s.time_periods.evening
        + s.time_periods.night = s.total_messages
    ∧ (s.participants.map s.messages_by_participant).sum = s.total_messages
    ∧ (s.participants.map s.conversations_started_by).sum = s.num_conversations := by
  simp only [get_basic_stats] at hok
  split at hok
  · exact absurd hok (by simp)
  · obtain ⟨hdate, hnum, hpart, hmap, hexist, htot, hper, hsums⟩ :=
      statsLoop_ok log.conversations 0 _ s hok
    obtain ⟨hps, hos⟩ := hsums (detect_participants_nodup log)
      (fun c hc m hm => mem_detect_participants hc hm)
    refine ⟨?_, ?_, ?_⟩
    · show periodSum s.time_periods = s.total_messages
      rw [hper, htot]
      simp [initStats, periodSum]
    · show partSum s = s.total_messages
      rw [hps, htot]
      simp [initStats, partSum, sum_map_zero]
    · show openerSum s = s.num_conversations
      rw [hos, hnum]
      simp [initStats, openerSum, sum_map_zero]

/-- C10 (witness): the three consistency sums on the statistics record of
the end-to-end sample log. -/
theorem spec_C10_witness :
    sampleStats.time_periods.morning + sampleStats.time_periods.afternoon
        + sampleStats.time_periods.evening + sampleStats.time_periods.night
      = sampleStats.total_messages
    ∧ (sampleStats.participants.map sampleStats.messages_by_participant).sum
      = sampleStats.total_messages
    ∧ (sampleStats.participants.map sampleStats.conversations_started_by).sum
      = sampleStats.num_conversations :=
  spec_C10 sampleLog sampleStats rfl
